import Mathlib

/-!
Shallow embedding of `src/baseline.py`: a first-come-first-serve hospital
triage queue implemented over a doubly linked list.

Python object references are modelled by an arena (`List Node`) addressed by
natural numbers; the Python value `None` becomes `Option.none`.  A fresh node
is allocated by appending to the arena, so its address is the old arena
length; detached nodes simply stay in the arena, unreachable from `head`,
exactly as garbage-collected Python objects would.  The single
`assert self.tail is not None` inside `arrive` (and the impossibility of a
dangling reference in Python) is modelled by `arrive` returning `none` when
the assertion would fail; all other operations are total, as in the source.
Python `int` is `Int` and Python `str` is `String`.
-/

set_option maxHeartbeats 1000000

/-- `Patient` dataclass from `src/baseline.py` (lines 5-14). -/
structure Patient where
  id : Int
  name : String
  severity : Int
  arrival_time : Int
deriving DecidableEq, Inhabited, Repr

/-- `_Node` from `src/baseline.py` (lines 16-24): one patient plus
next/previous pointers, here optional arena addresses. -/
structure Node where
  data : Patient
  next_ptr : Option Nat
  prev_ptr : Option Nat
deriving DecidableEq, Inhabited, Repr

/-- The state of a `FCFSTriageSystem` object (`src/baseline.py`, lines 27-129):
head/tail pointers, the stored size and optional capacity, plus the arena
holding every node ever allocated. -/
structure FCFSTriageSystem where
  head : Option Nat
  tail : Option Nat
  _size : Int
  _capacity : Option Int
  nodes : List Node
deriving DecidableEq, Repr

namespace FCFSTriageSystem

/-- `FCFSTriageSystem.__init__` (lines 33-38): empty list, size 0,
the given optional capacity, and an empty arena. -/
def init (max_capacity : Option Int) : FCFSTriageSystem :=
  { head := none, tail := none, _size := 0, _capacity := max_capacity, nodes := [] }

/-- `is_full` (lines 40-42): capacity is set and `size >= capacity`. -/
def is_full (s : FCFSTriageSystem) : Bool :=
  match s._capacity with
  | none => false
  | some c => decide (c ≤ s._size)

/-- `is_empty` (lines 44-46): `size == 0`. -/
def is_empty (s : FCFSTriageSystem) : Bool :=
  s._size == 0

/-- `arrive` (lines 48-67).  Returns `none` exactly when the Python
`assert self.tail is not None` would raise; otherwise `some` of the updated
state and the boolean result (`False` when full, `True` on success). -/
def arrive (s : FCFSTriageSystem) (patient : Patient) : Option (FCFSTriageSystem × Bool) :=
  if s.is_full then some (s, false)
  else
    match s.head with
    | none =>
        -- Queue is empty: head = tail = new node.
        some ({ s with
                  head := some s.nodes.length,
                  tail := some s.nodes.length,
                  _size := s._size + 1,
                  nodes := s.nodes ++ [{ data := patient, next_ptr := none, prev_ptr := none }] },
              true)
    | some _ =>
        match s.tail with
        | none => none   -- `assert self.tail is not None` fails
        | some t =>
            -- tail.next_ptr = new_node; new_node.prev_ptr = tail; tail = new_node
            some ({ s with
                      tail := some s.nodes.length,
                      _size := s._size + 1,
                      nodes := (s.nodes.set t
                                  { s.nodes.getD t default with next_ptr := some s.nodes.length })
                               ++ [{ data := patient, next_ptr := none, prev_ptr := some t }] },
                  true)

/-- `serve_next` (lines 69-86): pop the front node, fix the new head's
previous pointer (or clear `tail` if the queue became empty), decrement the
size and return the detached patient. -/
def serve_next (s : FCFSTriageSystem) : FCFSTriageSystem × Option Patient :=
  match s.head with
  | none => (s, none)
  | some h =>
      let node := s.nodes.getD h default
      match node.next_ptr with
      | some nh =>
          ({ s with
               head := some nh,
               _size := s._size - 1,
               nodes := s.nodes.set nh { s.nodes.getD nh default with prev_ptr := none } },
           some node.data)
      | none =>
          ({ s with head := none, tail := none, _size := s._size - 1 }, some node.data)

/-- The loop body of `traverse_forward` (lines 92-99): follow `next_ptr`
links, collecting the patients.  The `fuel` argument bounds the number of
iterations; on every state the system actually reaches, `nodes.length` steps
are enough, so `traverse_forward` below computes exactly what the Python
`while` loop does. -/
def fwdFrom (nodes : List Node) : Nat → Option Nat → List Patient
  | _, none => []
  | 0, some _ => []
  | fuel + 1, some a =>
      (nodes.getD a default).data :: fwdFrom nodes fuel (nodes.getD a default).next_ptr

/-- `traverse_forward` (lines 92-99): list of patients front to rear. -/
def traverse_forward (s : FCFSTriageSystem) : List Patient :=
  fwdFrom s.nodes s.nodes.length s.head

/-- The loop body of `traverse_backward` (lines 101-108): follow `prev_ptr`
links from the tail. -/
def bwdFrom (nodes : List Node) : Nat → Option Nat → List Patient
  | _, none => []
  | 0, some _ => []
  | fuel + 1, some a =>
      (nodes.getD a default).data :: bwdFrom nodes fuel (nodes.getD a default).prev_ptr

/-- `traverse_backward` (lines 101-108): list of patients rear to front. -/
def traverse_backward (s : FCFSTriageSystem) : List Patient :=
  bwdFrom s.nodes s.nodes.length s.tail

/-- `get_current_size` (lines 123-125). -/
def get_current_size (s : FCFSTriageSystem) : Int :=
  s._size

/-- `get_max_size` (lines 127-129). -/
def get_max_size (s : FCFSTriageSystem) : Option Int :=
  s._capacity

/-- States reachable from a freshly constructed system through the public
mutating operations `arrive` and `serve_next`. -/
inductive Reachable : FCFSTriageSystem → Prop
  | init (cap : Option Int) : Reachable (init cap)
  | arrive (s s' : FCFSTriageSystem) (p : Patient) (ok : Bool) :
      Reachable s → arrive s p = some (s', ok) → Reachable s'
  | serve (s s' : FCFSTriageSystem) (r : Option Patient) :
      Reachable s → serve_next s = (s', r) → Reachable s'

end FCFSTriageSystem

open FCFSTriageSystem

/-- `isChain nodes cur prev l`: starting from pointer `cur`, whose node's
`prev_ptr` must equal `prev`, following `next_ptr` links visits exactly the
arena addresses in `l` and then ends at `none`.  This packages validity of
the addresses, the forward links, and the symmetric backward links. -/
def isChain (nodes : List Node) : Option Nat → Option Nat → List Nat → Prop
  | cur, _, [] => cur = none
  | cur, prev, a :: rest =>
      cur = some a ∧ a < nodes.length ∧
      (nodes.getD a default).prev_ptr = prev ∧
      isChain nodes (nodes.getD a default).next_ptr (some a) rest

/-- The patients stored at a list of arena addresses. -/
def patsOf (nodes : List Node) (l : List Nat) : List Patient :=
  l.map fun a => (nodes.getD a default).data

/-- Structural invariant of the doubly linked queue: some duplicate-free
address list `l` is the chain from `head`, `tail` is its last element, and
the stored size is its length. -/
def chainInv (s : FCFSTriageSystem) (l : List Nat) : Prop :=
  isChain s.nodes s.head none l ∧
  s.tail = l.getLast? ∧
  s._size = (l.length : Int) ∧
  l.Nodup

/-- Capacity part of the invariant: if a non-negative capacity is set, size
never exceeds it.  (With a negative capacity the very first state already
has `size = 0 > capacity`, so the unguarded bound cannot hold.) -/
def capOK (s : FCFSTriageSystem) : Prop :=
  ∀ c, s._capacity = some c → 0 ≤ c → s._size ≤ c

/-- Full system invariant. -/
def sysInv (s : FCFSTriageSystem) : Prop :=
  (∃ l, chainInv s l) ∧ capOK s

/-- The arena after `arrive` in the non-empty branch: the old tail node `t`
gets `next_ptr` pointing at the freshly appended node holding `p`. -/
def snocArena (nodes : List Node) (t : Nat) (p : Patient) : List Node :=
  (nodes.set t { nodes.getD t default with next_ptr := some nodes.length })
    ++ [{ data := p, next_ptr := none, prev_ptr := some t }]


/-! ### Interaction sequences -/

/-- One menu-driven call into the queue engine. -/
inductive Op where
  | arrive (p : Patient) : Op
  | serve : Op
deriving DecidableEq, Repr

/-- Run a list of `arrive` calls in order, collecting the boolean results;
`none` if some call hits the failing assertion. -/
def runArrives : FCFSTriageSystem → List Patient → Option (FCFSTriageSystem × List Bool)
  | s, [] => some (s, [])
  | s, p :: ps =>
      match s.arrive p with
      | none => none
      | some (s1, ok) =>
          match runArrives s1 ps with
          | none => none
          | some (s2, oks) => some (s2, ok :: oks)

/-- Call `serve_next` `n` times, collecting the returned values. -/
def runServes : FCFSTriageSystem → Nat → FCFSTriageSystem × List (Option Patient)
  | s, 0 => (s, [])
  | s, n + 1 =>
      let r := s.serve_next
      let rest := runServes r.1 n
      (rest.1, r.2 :: rest.2)

/-- Run an interleaved sequence of operations, counting the successful
arrivals (`k`) and the successful servings (`m`). -/
def runOps : FCFSTriageSystem → List Op → Option (FCFSTriageSystem × Nat × Nat)
  | s, [] => some (s, 0, 0)
  | s, Op.arrive p :: ops =>
      match s.arrive p with
      | none => none
      | some (s1, ok) =>
          match runOps s1 ops with
          | none => none
          | some (s2, k, m) => some (s2, (if ok then k + 1 else k), m)
  | s, Op.serve :: ops =>
      let r := s.serve_next
      match runOps r.1 ops with
      | none => none
      | some (s2, k, m) => some (s2, k, (if r.2.isSome then m + 1 else m))

/-- `Session s admitted served`: state `s` arises from a fresh queue through
an interaction sequence in which exactly the patients in `admitted` were
accepted by `arrive` (in this order) and exactly those in `served` were
returned by `serve_next` (in this order). -/
inductive Session : FCFSTriageSystem → List Patient → List Patient → Prop
  | init (cap : Option Int) : Session (FCFSTriageSystem.init cap) [] []
  | arriveOk (s s' : FCFSTriageSystem) (adm srv : List Patient) (p : Patient) :
      Session s adm srv → s.arrive p = some (s', true) → Session s' (adm ++ [p]) srv
  | arriveFail (s s' : FCFSTriageSystem) (adm srv : List Patient) (p : Patient) :
      Session s adm srv → s.arrive p = some (s', false) → Session s' adm srv
  | serveOk (s s' : FCFSTriageSystem) (adm srv : List Patient) (q : Patient) :
      Session s adm srv → s.serve_next = (s', some q) → Session s' adm (srv ++ [q])
  | serveEmpty (s s' : FCFSTriageSystem) (adm srv : List Patient) :
      Session s adm srv → s.serve_next = (s', none) → Session s' adm srv

/-! ### Concrete states used as evaluation points -/

def pA : Patient := { id := 1, name := "Alice", severity := 3, arrival_time := 1 }

def pB : Patient := { id := 2, name := "Bob", severity := 5, arrival_time := 2 }

def pC : Patient := { id := 3, name := "Carol", severity := 1, arrival_time := 3 }

/-- A patient violating every suggested field domain: empty name, severity
outside 1-5, negative arrival time, id duplicating `pA`. -/
def pBad : Patient := { id := 1, name := "", severity := 0, arrival_time := -7 }

/-- Unbounded queue holding `pA`. -/
def oneS : FCFSTriageSystem :=
  (((FCFSTriageSystem.init none).arrive pA).getD (FCFSTriageSystem.init none, false)).1

/-- Unbounded queue holding `pA`, `pB`. -/
def twoS : FCFSTriageSystem :=
  ((oneS.arrive pB).getD (FCFSTriageSystem.init none, false)).1

/-- `twoS` after serving `pA`. -/
def servedS : FCFSTriageSystem :=
  (twoS.serve_next).1

/-- Queue with capacity 1 holding `pA`: a full queue. -/
def fullS : FCFSTriageSystem :=
  (((FCFSTriageSystem.init (some 1)).arrive pA).getD (FCFSTriageSystem.init none, false)).1


/-! ### Arena lookup lemmas -/

theorem getD_append_lt (nodes more : List Node) (a : Nat) (h : a < nodes.length) :
    (nodes ++ more).getD a default = nodes.getD a default := by
  simp [List.getD_eq_getElem?_getD, List.getElem?_append_left h]

theorem getD_append_self (nodes : List Node) (x : Node) :
    (nodes ++ [x]).getD nodes.length default = x := by
  simp [List.getD_eq_getElem?_getD]

theorem getD_set_ne (nodes : List Node) (t a : Nat) (v : Node) (h : t ≠ a) :
    (nodes.set t v).getD a default = nodes.getD a default := by
  simp [List.getD_eq_getElem?_getD, List.getElem?_set_ne h]

theorem getD_set_self (nodes : List Node) (t : Nat) (v : Node) (h : t < nodes.length) :
    (nodes.set t v).getD t default = v := by
  simp [List.getD_eq_getElem?_getD, List.getElem?_set_self h]

/-! ### Chain lemmas -/

theorem isChain_mem_lt (nodes : List Node) :
    ∀ (l : List Nat) (cur prev : Option Nat), isChain nodes cur prev l →
      ∀ a ∈ l, a < nodes.length := by
  intro l
  induction l with
  | nil => intro cur prev _ a ha; cases ha
  | cons b rest ih =>
      intro cur prev h a ha
      obtain ⟨_, hb, _, hrest⟩ := h
      rcases List.mem_cons.mp ha with rfl | ha
      · exact hb
      · exact ih _ _ hrest a ha

theorem isChain_nil_of_head_none (nodes : List Node) (prev : Option Nat) :
    ∀ l : List Nat, isChain nodes none prev l → l = [] := by
  intro l h
  cases l with
  | nil => rfl
  | cons a rest => exact absurd h.1 (by simp)

theorem isChain_congr (nodes nodes2 : List Node) (hlen : nodes.length ≤ nodes2.length) :
    ∀ (l : List Nat) (cur prev : Option Nat),
      (∀ a ∈ l, nodes2.getD a default = nodes.getD a default) →
      isChain nodes cur prev l → isChain nodes2 cur prev l := by
  intro l
  induction l with
  | nil => intro cur prev _ h; exact h
  | cons b rest ih =>
      intro cur prev hag h
      obtain ⟨hcur, hb, hprev, hrest⟩ := h
      have hbm : nodes2.getD b default = nodes.getD b default :=
        hag b (List.mem_cons_self b rest)
      refine ⟨hcur, lt_of_lt_of_le hb hlen, ?_, ?_⟩
      · rw [hbm]; exact hprev
      · rw [hbm]
        exact ih _ _ (fun a ha => hag a (List.mem_cons_of_mem _ ha)) hrest

theorem fwdFrom_chain (nodes : List Node) :
    ∀ (l : List Nat) (cur prev : Option Nat) (fuel : Nat),
      isChain nodes cur prev l → l.length ≤ fuel →
      fwdFrom nodes fuel cur = patsOf nodes l := by
  intro l
  induction l with
  | nil =>
      intro cur prev fuel h _
      have : cur = none := h
      subst this
      cases fuel <;> simp [fwdFrom, patsOf]
  | cons b rest ih =>
      intro cur prev fuel h hf
      obtain ⟨hcur, _, _, hrest⟩ := h
      subst hcur
      cases fuel with
      | zero => simp at hf
      | succ f =>
          simp only [fwdFrom, patsOf, List.map]
          rw [ih _ _ f hrest (Nat.le_of_succ_le_succ hf)]
          rfl

theorem bwdFrom_chain (nodes : List Node) :
    ∀ (l : List Nat) (cur prev : Option Nat) (fuel : Nat),
      isChain nodes cur prev l → l ≠ [] →
      bwdFrom nodes (fuel + l.length) l.getLast? =
        (patsOf nodes l).reverse ++ bwdFrom nodes fuel prev := by
  intro l
  induction l with
  | nil => intro _ _ _ _ hne; exact absurd rfl hne
  | cons b rest ih =>
      intro cur prev fuel h _
      obtain ⟨hcur, _, hprev, hrest⟩ := h
      by_cases hr : rest = []
      · subst hr
        show bwdFrom nodes (fuel + 1) (some b) = _
        rw [bwdFrom, hprev]
        simp [patsOf]
      · have hlast : (b :: rest).getLast? = rest.getLast? := by
          cases rest with
          | nil => exact absurd rfl hr
          | cons c rest2 => exact List.getLast?_cons_cons
        have hstep := ih _ _ (fuel + 1) hrest hr
        have harith : fuel + (b :: rest).length = (fuel + 1) + rest.length := by
          simp [List.length_cons]; omega
        rw [hlast, harith, hstep]
        have hb1 : bwdFrom nodes (fuel + 1) (some b) =
            (nodes.getD b default).data :: bwdFrom nodes fuel prev := by
          rw [bwdFrom, hprev]
        rw [hb1]
        simp [patsOf]

/-! ### Traversals compute the chain contents -/

theorem chainInv_length_le (s : FCFSTriageSystem) (l : List Nat) (h : chainInv s l) :
    l.length ≤ s.nodes.length := by
  classical
  obtain ⟨hch, _, _, hnd⟩ := h
  have hsub : l.toFinset ⊆ Finset.range s.nodes.length := by
    intro a ha
    rw [List.mem_toFinset] at ha
    exact Finset.mem_range.mpr (isChain_mem_lt _ _ _ _ hch a ha)
  have hcard := Finset.card_le_card hsub
  rwa [List.toFinset_card_of_nodup hnd, Finset.card_range] at hcard

theorem traverse_forward_chain (s : FCFSTriageSystem) (l : List Nat) (h : chainInv s l) :
    s.traverse_forward = patsOf s.nodes l :=
  fwdFrom_chain s.nodes l s.head none s.nodes.length h.1 (chainInv_length_le s l h)

theorem traverse_backward_chain (s : FCFSTriageSystem) (l : List Nat) (h : chainInv s l) :
    s.traverse_backward = (patsOf s.nodes l).reverse := by
  obtain ⟨hch, htail, -, -⟩ := id h
  cases l with
  | nil =>
      rw [FCFSTriageSystem.traverse_backward, htail]
      cases hn : s.nodes.length <;> simp [bwdFrom, patsOf]
  | cons b rest =>
      have hne : (b :: rest) ≠ [] := by simp
      have hlen := chainInv_length_le s (b :: rest) h
      have hstep := bwdFrom_chain s.nodes (b :: rest) s.head none
        (s.nodes.length - (b :: rest).length) hch hne
      rw [Nat.sub_add_cancel hlen] at hstep
      rw [FCFSTriageSystem.traverse_backward, htail, hstep]
      cases hn : s.nodes.length - (b :: rest).length <;> simp [bwdFrom]

/-! ### Operation specifications -/

theorem arrive_full (s : FCFSTriageSystem) (p : Patient) (h : s.is_full = true) :
    s.arrive p = some (s, false) := by
  simp [FCFSTriageSystem.arrive, h]

theorem chainInv_init (cap : Option Int) : chainInv (FCFSTriageSystem.init cap) [] := by
  refine ⟨?_, rfl, rfl, List.nodup_nil⟩
  rfl

theorem snocArena_length (nodes : List Node) (t : Nat) (p : Patient) :
    (snocArena nodes t p).length = nodes.length + 1 := by
  simp [snocArena]

theorem snocArena_getD_old (nodes : List Node) (t : Nat) (p : Patient) (a : Nat)
    (ha : a < nodes.length) (hat : t ≠ a) :
    (snocArena nodes t p).getD a default = nodes.getD a default := by
  rw [snocArena, getD_append_lt _ _ _ (by simpa using ha)]
  exact getD_set_ne _ _ _ _ hat

theorem snocArena_getD_tail (nodes : List Node) (t : Nat) (p : Patient)
    (ht : t < nodes.length) :
    (snocArena nodes t p).getD t default
      = { nodes.getD t default with next_ptr := some nodes.length } := by
  rw [snocArena, getD_append_lt _ _ _ (by simpa using ht)]
  exact getD_set_self _ _ _ ht

theorem snocArena_getD_new (nodes : List Node) (t : Nat) (p : Patient) :
    (snocArena nodes t p).getD nodes.length default
      = { data := p, next_ptr := none, prev_ptr := some t } := by
  have h := getD_append_self
    (nodes.set t { nodes.getD t default with next_ptr := some nodes.length })
    { data := p, next_ptr := none, prev_ptr := some t }
  rwa [List.length_set] at h

theorem isChain_snoc (nodes : List Node) (p : Patient) (t : Nat) :
    ∀ (l : List Nat) (cur prev : Option Nat),
      isChain nodes cur prev l → l.Nodup → l.getLast? = some t →
      isChain (snocArena nodes t p) cur prev (l ++ [nodes.length]) := by
  intro l
  induction l with
  | nil => intro cur prev _ _ hlast; simp at hlast
  | cons a rest ih =>
      intro cur prev h hnd hlast
      obtain ⟨hcur, ha, hprev, hrest⟩ := h
      by_cases hr : rest = []
      · subst hr
        have hta : t = a := by
          simp [List.getLast?] at hlast
          omega
        subst hta
        refine ⟨hcur, ?_, ?_, ?_⟩
        · rw [snocArena_length]; omega
        · rw [snocArena_getD_tail _ _ _ ha]; exact hprev
        · rw [snocArena_getD_tail _ _ _ ha]
          refine ⟨rfl, ?_, ?_, ?_⟩
          · rw [snocArena_length]; omega
          · rw [snocArena_getD_new]
          · rw [snocArena_getD_new]; rfl
      · have hlast2 : rest.getLast? = some t := by
          cases rest with
          | nil => exact absurd rfl hr
          | cons c rest2 => rwa [List.getLast?_cons_cons] at hlast
        have htmem : t ∈ rest :=
          List.mem_of_mem_getLast? (by rw [hlast2]; rfl)
        have hanotin : a ∉ rest := (List.nodup_cons.mp hnd).1
        have hat : t ≠ a := fun he => hanotin (he ▸ htmem)
        refine ⟨hcur, ?_, ?_, ?_⟩
        · rw [snocArena_length]; omega
        · rw [snocArena_getD_old _ _ _ _ ha hat]; exact hprev
        · rw [snocArena_getD_old _ _ _ _ ha hat]
          exact ih _ _ hrest (List.nodup_cons.mp hnd).2 hlast2

theorem snocArena_data (nodes : List Node) (t : Nat) (p : Patient) (a : Nat)
    (ha : a < nodes.length) (ht : t < nodes.length) :
    ((snocArena nodes t p).getD a default).data = (nodes.getD a default).data := by
  by_cases hat : t = a
  · subst hat; rw [snocArena_getD_tail _ _ _ ht]
  · rw [snocArena_getD_old _ _ _ _ ha hat]

/-- `arrive` on a non-full queue succeeds, appends the new node at the rear,
keeps the capacity, and increments the size by one. -/
theorem arrive_ok (s : FCFSTriageSystem) (l : List Nat) (p : Patient)
    (h : chainInv s l) (hf : s.is_full = false) :
    ∃ s', s.arrive p = some (s', true) ∧
      chainInv s' (l ++ [s.nodes.length]) ∧
      patsOf s'.nodes (l ++ [s.nodes.length]) = patsOf s.nodes l ++ [p] ∧
      s'._capacity = s._capacity ∧ s'._size = s._size + 1 := by
  obtain ⟨hch, htail, hsize, hnd⟩ := h
  cases hhd : s.head with
  | none =>
      have hl : l = [] := isChain_nil_of_head_none _ _ _ (hhd ▸ hch)
      subst hl
      refine ⟨{ s with head := some s.nodes.length, tail := some s.nodes.length, _size := s._size + 1, nodes := s.nodes ++ [{ data := p, next_ptr := none, prev_ptr := none }] }, ?_, ?_, ?_, rfl, rfl⟩
      · simp [FCFSTriageSystem.arrive, hf, hhd]
      · refine ⟨⟨rfl, by simp, ?_, ?_⟩, by simp, ?_, by simp⟩
        · rw [getD_append_self]
        · rw [getD_append_self]; rfl
        · have : s._size = 0 := by simpa using hsize
          simp [this]
      · simp [patsOf, getD_append_self]
  | some hd =>
      rw [hhd] at hch
      cases l with
      | nil => exact absurd hch (by simp [isChain])
      | cons a rest =>
          have hne : (a :: rest) ≠ [] := by simp
          have hlast : (a :: rest).getLast? = some ((a :: rest).getLast hne) :=
            List.getLast?_eq_getLast _ hne
          have htl : s.tail = some ((a :: rest).getLast hne) := by rw [htail, hlast]
          have htmem : (a :: rest).getLast hne ∈ (a :: rest) :=
            List.mem_of_mem_getLast? (by rw [hlast]; rfl)
          have htlt : (a :: rest).getLast hne < s.nodes.length :=
            isChain_mem_lt _ _ _ _ (hhd ▸ hch) _ htmem
          refine ⟨{ s with tail := some s.nodes.length, _size := s._size + 1, nodes := snocArena s.nodes ((a :: rest).getLast hne) p }, ?_, ?_, ?_, rfl, rfl⟩
          · simp only [FCFSTriageSystem.arrive, hf, Bool.false_eq_true, if_false, hhd, htl]
            rfl
          · refine ⟨?_, ?_, ?_, ?_⟩
            · show isChain _ s.head none _
              rw [hhd]
              exact isChain_snoc s.nodes p _ (a :: rest) (some hd) none hch hnd hlast
            · show some s.nodes.length = ((a :: rest) ++ [s.nodes.length]).getLast?
              rw [List.getLast?_concat]
            · rw [hsize]
              simp only [List.length_append, List.length_cons, List.length_nil]
              push_cast
              omega
            · refine List.Nodup.append hnd (List.nodup_singleton _) ?_
              intro x hx hmem
              have hxlt : x < s.nodes.length :=
                isChain_mem_lt _ _ _ _ (hhd ▸ hch) _ hx
              simp at hmem
              omega
          · simp only [patsOf, List.map_append]
            congr 1
            · apply List.map_congr_left
              intro x hx
              exact snocArena_data s.nodes _ p x
                (isChain_mem_lt _ _ _ _ (hhd ▸ hch) _ hx) htlt
            · simp only [List.map_cons, List.map_nil]
              rw [snocArena_getD_new]

/-- `serve_next` on an empty queue returns `None` and changes nothing. -/
theorem serve_empty (s : FCFSTriageSystem) (h : chainInv s []) :
    s.serve_next = (s, none) := by
  have hh : s.head = none := h.1
  simp [FCFSTriageSystem.serve_next, hh]

/-- `serve_next` on a non-empty queue returns the front patient, keeps the
rest of the chain intact (with the same stored patients), and decrements
the size. -/
theorem serve_cons (s : FCFSTriageSystem) (a : Nat) (rest : List Nat)
    (h : chainInv s (a :: rest)) :
    ∃ s', s.serve_next = (s', some ((s.nodes.getD a default).data)) ∧
      chainInv s' rest ∧
      patsOf s'.nodes rest = patsOf s.nodes rest ∧
      s'._capacity = s._capacity ∧ s'._size = s._size - 1 := by
  obtain ⟨hch, htail, hsize, hnd⟩ := h
  obtain ⟨hcur, halt, hprev, hrest⟩ := hch
  cases hrn : (s.nodes.getD a default).next_ptr with
  | none =>
      rw [hrn] at hrest
      have hre : rest = [] := isChain_nil_of_head_none _ _ _ hrest
      subst hre
      refine ⟨{ s with head := none, tail := none, _size := s._size - 1 }, ?_, ?_, rfl, rfl, rfl⟩
      · simp only [FCFSTriageSystem.serve_next, hcur, hrn]
      · refine ⟨rfl, rfl, ?_, List.nodup_nil⟩
        rw [hsize]; simp
  | some b =>
      rw [hrn] at hrest
      cases rest with
      | nil => exact absurd hrest (by simp [isChain])
      | cons b2 rest2 =>
          obtain ⟨hb, hblt, hbprev, hrest2⟩ := hrest
          have hbb : b = b2 := Option.some_injective _ hb
          subst hbb
          have hbnotin : b ∉ rest2 := (List.nodup_cons.mp (List.nodup_cons.mp hnd).2).1
          refine ⟨{ s with head := some b, _size := s._size - 1, nodes := s.nodes.set b { s.nodes.getD b default with prev_ptr := none } }, ?_, ?_, ?_, rfl, rfl⟩
          · simp only [FCFSTriageSystem.serve_next, hcur, hrn]
          · refine ⟨?_, ?_, ?_, (List.nodup_cons.mp hnd).2⟩
            · refine ⟨rfl, by simpa using hblt, ?_, ?_⟩
              · rw [getD_set_self _ _ _ hblt]
              · rw [getD_set_self _ _ _ hblt]
                show isChain _ (s.nodes.getD b default).next_ptr (some b) rest2
                refine isChain_congr s.nodes _ (by simp) rest2 _ _ ?_ hrest2
                intro x hx
                exact getD_set_ne _ _ _ _ (fun he => hbnotin (by rw [he]; exact hx))
            · show s.tail = _
              rw [htail, List.getLast?_cons_cons]
            · rw [hsize]
              simp only [List.length_cons]
              push_cast
              omega
          · show patsOf _ (b :: rest2) = patsOf _ (b :: rest2)
            simp only [patsOf]
            apply List.map_congr_left
            intro x hx
            rcases List.mem_cons.mp hx with rfl | hx2
            · rw [getD_set_self _ _ _ hblt]
            · rw [getD_set_ne _ _ _ _ (fun he => hbnotin (by rw [he]; exact hx2))]

/-! ### The invariant holds in every reachable state -/

theorem is_full_false_lt (s : FCFSTriageSystem) (c : Int) (hc : s._capacity = some c)
    (hf : s.is_full = false) : s._size < c := by
  rw [FCFSTriageSystem.is_full, hc] at hf
  simp at hf
  exact hf

theorem chainInv_size_nonneg (s : FCFSTriageSystem) (l : List Nat) (h : chainInv s l) :
    0 ≤ s._size := by
  rw [h.2.2.1]
  exact Int.natCast_nonneg _

theorem sysInv_init (cap : Option Int) : sysInv (FCFSTriageSystem.init cap) :=
  ⟨⟨[], chainInv_init cap⟩, fun _ _ h0 => h0⟩

theorem reachable_sysInv (s : FCFSTriageSystem) (hs : Reachable s) : sysInv s := by
  induction hs with
  | init cap => exact sysInv_init cap
  | arrive s s' p ok hr harr ih =>
      obtain ⟨⟨l, hci⟩, hcap⟩ := ih
      cases hfull : s.is_full with
      | true =>
          have h := (arrive_full s p hfull).symm.trans harr
          simp only [Option.some.injEq, Prod.mk.injEq] at h
          obtain ⟨rfl, -⟩ := h
          exact ⟨⟨l, hci⟩, hcap⟩
      | false =>
          obtain ⟨s2, harr2, hci2, hpats, hcapEq, hsz⟩ := arrive_ok s l p hci hfull
          have h := harr2.symm.trans harr
          simp only [Option.some.injEq, Prod.mk.injEq] at h
          obtain ⟨rfl, -⟩ := h
          refine ⟨⟨l ++ [s.nodes.length], hci2⟩, ?_⟩
          intro c hc h0
          rw [hcapEq] at hc
          have hlt := is_full_false_lt s c hc hfull
          rw [hsz]
          omega
  | serve s s' r hr hsrv ih =>
      obtain ⟨⟨l, hci⟩, hcap⟩ := ih
      cases l with
      | nil =>
          have h := (serve_empty s hci).symm.trans hsrv
          simp only [Prod.mk.injEq] at h
          obtain ⟨rfl, -⟩ := h
          exact ⟨⟨[], hci⟩, hcap⟩
      | cons a rest =>
          obtain ⟨s2, hsrv2, hci2, hpats, hcapEq, hsz⟩ := serve_cons s a rest hci
          have h := hsrv2.symm.trans hsrv
          simp only [Prod.mk.injEq] at h
          obtain ⟨rfl, -⟩ := h
          refine ⟨⟨rest, hci2⟩, ?_⟩
          intro c hc h0
          rw [hcapEq] at hc
          have hle := hcap c hc h0
          rw [hsz]
          omega

/-! ### Abstraction-level step lemmas -/

/-- Everything one `arrive` call can do from a state satisfying the
invariant: it preserves the invariant and either fails (queue full, state
untouched) or succeeds and appends the patient at the rear. -/
theorem arrive_step (s s' : FCFSTriageSystem) (p : Patient) (ok : Bool)
    (hinv : sysInv s) (h : s.arrive p = some (s', ok)) :
    sysInv s' ∧
    ((ok = false ∧ s.is_full = true ∧ s' = s) ∨
     (ok = true ∧ s.is_full = false ∧
      s'.traverse_forward = s.traverse_forward ++ [p] ∧
      s'._capacity = s._capacity ∧ s'._size = s._size + 1)) := by
  obtain ⟨⟨l, hci⟩, hcap⟩ := hinv
  cases hfull : s.is_full with
  | true =>
      have h2 := (arrive_full s p hfull).symm.trans h
      simp only [Option.some.injEq, Prod.mk.injEq] at h2
      obtain ⟨rfl, rfl⟩ := h2
      exact ⟨⟨⟨l, hci⟩, hcap⟩, Or.inl ⟨rfl, rfl, rfl⟩⟩
  | false =>
      obtain ⟨s2, harr2, hci2, hpats, hcapEq, hsz⟩ := arrive_ok s l p hci hfull
      have h2 := harr2.symm.trans h
      simp only [Option.some.injEq, Prod.mk.injEq] at h2
      obtain ⟨rfl, rfl⟩ := h2
      refine ⟨⟨⟨l ++ [s.nodes.length], hci2⟩, ?_⟩, Or.inr ⟨rfl, rfl, ?_, hcapEq, hsz⟩⟩
      · intro c hc h0
        rw [hcapEq] at hc
        have hlt := is_full_false_lt s c hc hfull
        rw [hsz]
        omega
      · rw [traverse_forward_chain s2 _ hci2, hpats, traverse_forward_chain s l hci]

/-- Everything one `serve_next` call can do from a state satisfying the
invariant: the returned value is the head of the forward traversal, the new
traversal is its tail, and the invariant is preserved. -/
theorem serve_step (s s' : FCFSTriageSystem) (r : Option Patient)
    (hinv : sysInv s) (h : s.serve_next = (s', r)) :
    sysInv s' ∧ r = s.traverse_forward.head? ∧
    s'.traverse_forward = s.traverse_forward.tail ∧
    s'._capacity = s._capacity ∧
    ((r = none ∧ s' = s) ∨ (r.isSome = true ∧ s'._size = s._size - 1)) := by
  obtain ⟨⟨l, hci⟩, hcap⟩ := hinv
  cases l with
  | nil =>
      have h2 := (serve_empty s hci).symm.trans h
      simp only [Prod.mk.injEq] at h2
      obtain ⟨rfl, rfl⟩ := h2
      have htf : s.traverse_forward = [] := by
        rw [traverse_forward_chain s [] hci]; rfl
      rw [htf]
      exact ⟨⟨⟨[], hci⟩, hcap⟩, rfl, rfl, rfl, Or.inl ⟨rfl, rfl⟩⟩
  | cons a rest =>
      obtain ⟨s2, hsrv2, hci2, hpats, hcapEq, hsz⟩ := serve_cons s a rest hci
      have h2 := hsrv2.symm.trans h
      simp only [Prod.mk.injEq] at h2
      obtain ⟨rfl, rfl⟩ := h2
      have htf : s.traverse_forward
          = (s.nodes.getD a default).data :: patsOf s.nodes rest := by
        rw [traverse_forward_chain s _ hci]; rfl
      refine ⟨⟨⟨rest, hci2⟩, ?_⟩, by rw [htf]; rfl, ?_, hcapEq,
        Or.inr ⟨rfl, hsz⟩⟩
      · intro c hc h0
        rw [hcapEq] at hc
        have hle := hcap c hc h0
        rw [hsz]
        omega
      · rw [htf, traverse_forward_chain s2 _ hci2, hpats]
        rfl

theorem reachable_oneS : Reachable oneS :=
  Reachable.arrive _ _ pA true (Reachable.init none) rfl

theorem reachable_twoS : Reachable twoS :=
  Reachable.arrive _ _ pB true reachable_oneS rfl

theorem reachable_fullS : Reachable fullS :=
  Reachable.arrive _ _ pA true (Reachable.init (some 1)) rfl

/-! ### Lemmas about interaction sequences -/

theorem chainInv_nil_of_size_zero (s : FCFSTriageSystem) (l : List Nat)
    (hci : chainInv s l) (h : s._size = 0) : l = [] := by
  have hlen := hci.2.2.1
  cases l with
  | nil => rfl
  | cons a rest =>
      exfalso
      rw [h] at hlen
      simp only [List.length_cons] at hlen
      omega

theorem runArrives_all_true (ps : List Patient) :
    ∀ (s s' : FCFSTriageSystem) (oks : List Bool), sysInv s →
      runArrives s ps = some (s', oks) → oks = List.replicate ps.length true →
      sysInv s' ∧ s'.traverse_forward = s.traverse_forward ++ ps := by
  induction ps with
  | nil =>
      intro s s' oks hinv h hall
      simp only [runArrives, Option.some.injEq, Prod.mk.injEq] at h
      obtain ⟨rfl, -⟩ := h
      exact ⟨hinv, by simp⟩
  | cons p ps ih =>
      intro s s' oks hinv h hall
      rw [runArrives] at h
      cases h1 : s.arrive p with
      | none => rw [h1] at h; cases h
      | some pr =>
          obtain ⟨s1, ok⟩ := pr
          simp only [h1] at h
          cases h2 : runArrives s1 ps with
          | none => simp [h2] at h
          | some pr2 =>
              obtain ⟨s2, oks2⟩ := pr2
              simp only [h2, Option.some.injEq, Prod.mk.injEq] at h
              obtain ⟨rfl, rfl⟩ := h
              rw [List.length_cons, List.replicate_succ] at hall
              have hok : ok = true := (List.cons.injEq .. ▸ hall).1
              have hoks2 : oks2 = List.replicate ps.length true := (List.cons.injEq .. ▸ hall).2
              subst hok
              obtain ⟨hinv1, hdis⟩ := arrive_step s s1 p true hinv h1
              rcases hdis with ⟨hfalse, -, -⟩ | ⟨-, -, htf, -, -⟩
              · cases hfalse
              · obtain ⟨hinv2, htf2⟩ := ih s1 s2 oks2 hinv1 h2 hoks2
                refine ⟨hinv2, ?_⟩
                rw [htf2, htf, List.append_assoc]
                rfl

theorem runServes_all (n : Nat) :
    ∀ s : FCFSTriageSystem, sysInv s → s.traverse_forward.length = n →
      (runServes s n).2 = s.traverse_forward.map some := by
  induction n with
  | zero =>
      intro s hinv hlen
      have : s.traverse_forward = [] := List.length_eq_zero.mp hlen
      rw [runServes, this]
      rfl
  | succ n ih =>
      intro s hinv hlen
      cases htf : s.traverse_forward with
      | nil => rw [htf] at hlen; cases hlen
      | cons q qs =>
          obtain ⟨hinv1, hr, htf1, -, -⟩ :=
            serve_step s (s.serve_next).1 (s.serve_next).2 hinv rfl
          rw [htf] at hr htf1
          rw [runServes]
          show ((s.serve_next).2 :: (runServes (s.serve_next).1 n).2)
              = (q :: qs).map some
          rw [ih (s.serve_next).1 hinv1 (by rw [htf1]; rw [htf] at hlen; simpa using hlen)]
          rw [hr, htf1]
          rfl

theorem runOps_spec (ops : List Op) :
    ∀ s : FCFSTriageSystem, sysInv s →
      ∀ s' k m, runOps s ops = some (s', k, m) →
        sysInv s' ∧ s'._size = s._size + k - m := by
  induction ops with
  | nil =>
      intro s hinv s' k m h
      simp only [runOps, Option.some.injEq, Prod.mk.injEq] at h
      obtain ⟨rfl, rfl, rfl⟩ := h
      exact ⟨hinv, by simp⟩
  | cons op ops ih =>
      intro s hinv s' k m h
      cases op with
      | arrive p =>
          rw [runOps] at h
          cases h1 : s.arrive p with
          | none => rw [h1] at h; cases h
          | some pr =>
              obtain ⟨s1, ok⟩ := pr
              simp only [h1] at h
              cases h2 : runOps s1 ops with
              | none => simp [h2] at h
              | some pr2 =>
                  obtain ⟨s2, k2, m2⟩ := pr2
                  simp only [h2, Option.some.injEq, Prod.mk.injEq] at h
                  obtain ⟨rfl, rfl, rfl⟩ := h
                  obtain ⟨hinv1, hdis⟩ := arrive_step s s1 p ok hinv h1
                  obtain ⟨hinv2, hsz2⟩ := ih s1 hinv1 s2 k2 m2 h2
                  refine ⟨hinv2, ?_⟩
                  rcases hdis with ⟨rfl, -, rfl⟩ | ⟨rfl, -, -, -, hsz1⟩
                  · simp only [if_false, Bool.false_eq_true]
                    omega
                  · simp only [if_true]
                    rw [hsz2, hsz1]
                    push_cast
                    omega
      | serve =>
          rw [runOps] at h
          cases h2 : runOps (s.serve_next).1 ops with
          | none => simp [h2] at h
          | some pr2 =>
              obtain ⟨s2, k2, m2⟩ := pr2
              simp only [h2, Option.some.injEq, Prod.mk.injEq] at h
              obtain ⟨rfl, rfl, rfl⟩ := h
              obtain ⟨hinv1, -, -, -, hdis⟩ :=
                serve_step s (s.serve_next).1 (s.serve_next).2 hinv rfl
              obtain ⟨hinv2, hsz2⟩ := ih (s.serve_next).1 hinv1 s2 k2 m2 h2
              refine ⟨hinv2, ?_⟩
              rcases hdis with ⟨hnone, heq⟩ | ⟨hsome, hsz1⟩
              · rw [hnone]
                simp only [Option.isSome_none, Bool.false_eq_true, if_false]
                rw [hsz2, heq]
              · rw [hsome]
                simp only [if_true]
                rw [hsz2, hsz1]
                push_cast
                omega

theorem session_spec (s : FCFSTriageSystem) (adm srv : List Patient)
    (h : Session s adm srv) :
    sysInv s ∧ adm = srv ++ s.traverse_forward := by
  induction h with
  | init cap =>
      refine ⟨sysInv_init cap, ?_⟩
      rw [traverse_forward_chain _ [] (chainInv_init cap)]
      rfl
  | arriveOk s s' adm srv p hses harr ih =>
      obtain ⟨hinv, heq⟩ := ih
      obtain ⟨hinv1, hdis⟩ := arrive_step s s' p true hinv harr
      rcases hdis with ⟨hfalse, -, -⟩ | ⟨-, -, htf, -, -⟩
      · cases hfalse
      · refine ⟨hinv1, ?_⟩
        rw [htf, heq, List.append_assoc]
  | arriveFail s s' adm srv p hses harr ih =>
      obtain ⟨hinv, heq⟩ := ih
      obtain ⟨hinv1, hdis⟩ := arrive_step s s' p false hinv harr
      rcases hdis with ⟨-, -, rfl⟩ | ⟨hfalse, -, -⟩
      · exact ⟨hinv, heq⟩
      · cases hfalse
  | serveOk s s' adm srv q hses hsrv ih =>
      obtain ⟨hinv, heq⟩ := ih
      obtain ⟨hinv1, hr, htf, -, -⟩ := serve_step s s' (some q) hinv hsrv
      have hcons : s.traverse_forward = q :: s'.traverse_forward := by
        cases htf0 : s.traverse_forward with
        | nil => rw [htf0] at hr; cases hr
        | cons x xs =>
            rw [htf0] at hr htf
            simp only [List.head?_cons, Option.some.injEq] at hr
            rw [hr, htf]
            rfl
      refine ⟨hinv1, ?_⟩
      rw [heq, hcons]
      simp
  | serveEmpty s s' adm srv hses hsrv ih =>
      obtain ⟨hinv, heq⟩ := ih
      obtain ⟨hinv1, -, -, -, hdis⟩ := serve_step s s' none hinv hsrv
      rcases hdis with ⟨-, rfl⟩ | ⟨hsome, -⟩
      · exact ⟨hinv, heq⟩
      · cases hsome

/-! ### Claim theorems -/

/-- C1.  Strict FIFO order: starting from a fresh queue of any capacity, if
`N` arrivals all succeed, then `N` subsequent `serve_next` calls return
exactly the admitted patients in admission order; moreover, on every
reachable state `serve_next` returns the front of the forward traversal,
i.e. the earliest-admitted patient still queued, regardless of the
`severity` or `arrival_time` fields. -/
theorem c1_fifo_order :
    (∀ (cap : Option Int) (ps : List Patient) (s' : FCFSTriageSystem) (oks : List Bool),
        runArrives (FCFSTriageSystem.init cap) ps = some (s', oks) →
        oks = List.replicate ps.length true →
        (runServes s' ps.length).2 = ps.map some)
    ∧ (∀ s : FCFSTriageSystem, Reachable s →
        (s.serve_next).2 = s.traverse_forward.head?) := by
  constructor
  · intro cap ps s' oks h hall
    obtain ⟨hinv, htf⟩ := runArrives_all_true ps _ s' oks (sysInv_init cap) h hall
    have htf0 : (FCFSTriageSystem.init cap).traverse_forward = [] := by
      rw [traverse_forward_chain _ [] (chainInv_init cap)]
      rfl
    rw [htf0] at htf
    simp only [List.nil_append] at htf
    rw [runServes_all ps.length s' hinv (by rw [htf]), htf]
  · intro s hs
    obtain ⟨-, hr, -, -, -⟩ :=
      serve_step s (s.serve_next).1 (s.serve_next).2 (reachable_sysInv s hs) rfl
    exact hr

theorem c1_fifo_order_witness :
    (runServes ((runArrives (FCFSTriageSystem.init (some 3)) [pA, pB, pC]).getD
        (FCFSTriageSystem.init none, [])).1 3).2 = [some pA, some pB, some pC] := by
  refine c1_fifo_order.1 (some 3) [pA, pB, pC] _ [true, true, true] ?_ ?_
  · rfl
  · rfl

/-- C2.  Capacity enforcement with atomic failure: on a reachable queue
whose capacity is set and equal to its size, `arrive` returns `False` and
leaves the state literally unchanged; after one successful `serve_next`, a
subsequent `arrive` succeeds. -/
theorem c2_capacity_enforcement (s : FCFSTriageSystem) (hs : Reachable s) (c : Int)
    (hc : s._capacity = some c) (hsz : s._size = c) (p : Patient) :
    s.arrive p = some (s, false) ∧
    (∀ s' q, s.serve_next = (s', some q) → ∃ s2, s'.arrive p = some (s2, true)) := by
  have hfull : s.is_full = true := by
    simp only [FCFSTriageSystem.is_full, hc, hsz]
    simp
  refine ⟨arrive_full s p hfull, ?_⟩
  intro s' q hq
  have hinv := reachable_sysInv s hs
  obtain ⟨hinv1, hr, htf, hcapEq, hdis⟩ := serve_step s s' (some q) hinv hq
  rcases hdis with ⟨hnone, -⟩ | ⟨-, hsz1⟩
  · cases hnone
  · have hfull1 : s'.is_full = false := by
      simp only [FCFSTriageSystem.is_full, hcapEq, hc]
      simp only [decide_eq_false_iff_not, not_le]
      omega
    obtain ⟨⟨l1, hci1⟩, -⟩ := hinv1
    obtain ⟨s2, harr, -, -, -⟩ := arrive_ok s' l1 p hci1 hfull1
    exact ⟨s2, harr⟩

theorem c2_capacity_enforcement_witness :
    fullS.arrive pB = some (fullS, false) ∧
    (∃ s2, ((fullS.serve_next).1).arrive pB = some (s2, true)) := by
  have h := c2_capacity_enforcement fullS reachable_fullS 1 rfl rfl pB
  exact ⟨h.1, h.2 (fullS.serve_next).1 pA rfl⟩

/-- C3.  Underflow handling: `serve_next` on a reachable queue of size 0
returns `None` and the state — in particular the size — is unchanged. -/
theorem c3_underflow (s : FCFSTriageSystem) (hs : Reachable s)
    (h : s.get_current_size = 0) : s.serve_next = (s, none) := by
  obtain ⟨⟨l, hci⟩, -⟩ := reachable_sysInv s hs
  have hl : l = [] := chainInv_nil_of_size_zero s l hci h
  subst hl
  exact serve_empty s hci

theorem c3_underflow_witness :
    (FCFSTriageSystem.init none).serve_next = (FCFSTriageSystem.init none, none) :=
  c3_underflow _ (Reachable.init none) rfl

/-- C4 (amended).  Structural invariants in every reachable state: a
duplicate-free address list `l` is exactly the set of nodes reachable from
`head` along next-links, with symmetric prev-links (`isChain`); the stored
size equals its length; `head`/`tail` are empty iff the size is 0; `tail`
is the last chain element; and whenever a *non-negative* capacity is set,
the size never exceeds it.  (The non-negativity guard is forced: a queue
constructed with a negative capacity starts with `size 0 > capacity`, see
the counterexample.) -/
theorem c4_structural_invariants (s : FCFSTriageSystem) (hs : Reachable s) :
    ∃ l : List Nat,
      isChain s.nodes s.head none l ∧
      l.Nodup ∧
      s._size = (l.length : Int) ∧
      s.tail = l.getLast? ∧
      (s.head = none ↔ s._size = 0) ∧
      (s.tail = none ↔ s._size = 0) ∧
      (∀ c, s._capacity = some c → 0 ≤ c → s._size ≤ c) := by
  obtain ⟨⟨l, hci⟩, hcap⟩ := reachable_sysInv s hs
  obtain ⟨hch, htail, hsize, hnd⟩ := id hci
  refine ⟨l, hch, hnd, hsize, htail, ?_, ?_, hcap⟩
  · constructor
    · intro hh
      have hl : l = [] := isChain_nil_of_head_none _ _ _ (hh ▸ hch)
      rw [hsize, hl]
      rfl
    · intro h0
      have hl : l = [] := chainInv_nil_of_size_zero s l hci h0
      subst hl
      exact hch
  · constructor
    · intro ht
      rw [ht] at htail
      have hl : l = [] := List.getLast?_eq_none_iff.mp htail.symm
      rw [hsize, hl]
      rfl
    · intro h0
      have hl : l = [] := chainInv_nil_of_size_zero s l hci h0
      rw [htail, hl]
      rfl

/-- C4 counterexample: the claim as stated (size never exceeds a set
capacity) fails on the code for a negative capacity: the initial state with
capacity `-1` is reachable, has its capacity set, and its size `0` already
exceeds `-1`. -/
theorem c4_structural_invariants_counterexample :
    Reachable (FCFSTriageSystem.init (some (-1))) ∧
    (FCFSTriageSystem.init (some (-1)))._capacity = some (-1) ∧
    ¬ (FCFSTriageSystem.init (some (-1)))._size ≤ -1 :=
  ⟨Reachable.init _, rfl, by decide⟩

theorem c4_structural_invariants_witness :
    ∃ l : List Nat,
      isChain fullS.nodes fullS.head none l ∧
      l.Nodup ∧
      fullS._size = (l.length : Int) ∧
      fullS.tail = l.getLast? ∧
      (fullS.head = none ↔ fullS._size = 0) ∧
      (fullS.tail = none ↔ fullS._size = 0) ∧
      (∀ c, fullS._capacity = some c → 0 ≤ c → fullS._size ≤ c) :=
  c4_structural_invariants fullS reachable_fullS

/-- C5.  Traversal symmetry: on every reachable state, `traverse_backward`
is exactly the reverse of `traverse_forward`.  (In this embedding both
traversals are pure functions of the state, mirroring the fact that the
Python loops only read the chain.) -/
theorem c5_traversal_symmetry (s : FCFSTriageSystem) (hs : Reachable s) :
    s.traverse_backward = s.traverse_forward.reverse := by
  obtain ⟨⟨l, hci⟩, -⟩ := reachable_sysInv s hs
  rw [traverse_forward_chain s l hci, traverse_backward_chain s l hci]

theorem c5_traversal_symmetry_witness :
    twoS.traverse_backward = twoS.traverse_forward.reverse :=
  c5_traversal_symmetry twoS reachable_twoS

/-- C6.  Size bookkeeping: from a fresh queue, after any interleaving of
operations with `k` successful arrivals and `m` successful servings,
`get_current_size` returns exactly `k - m` (and `m ≤ k`). -/
theorem c6_size_bookkeeping (cap : Option Int) (ops : List Op)
    (s : FCFSTriageSystem) (k m : Nat)
    (h : runOps (FCFSTriageSystem.init cap) ops = some (s, k, m)) :
    (m : Int) ≤ k ∧ s.get_current_size = (k : Int) - m := by
  obtain ⟨hinv, hsz⟩ := runOps_spec ops _ (sysInv_init cap) s k m h
  have h0 : (FCFSTriageSystem.init cap)._size = 0 := rfl
  rw [h0] at hsz
  obtain ⟨⟨l, hci⟩, -⟩ := hinv
  have hnn := chainInv_size_nonneg s l hci
  constructor
  · omega
  · show s._size = (k : Int) - m
    omega

theorem c6_size_bookkeeping_witness :
    ((2 : Nat) : Int) ≤ (2 : Nat) ∧
    (((runOps (FCFSTriageSystem.init none)
        [Op.arrive pA, Op.arrive pB, Op.serve, Op.serve, Op.serve]).getD
          (FCFSTriageSystem.init none, 0, 0)).1).get_current_size
      = ((2 : Nat) : Int) - (2 : Nat) :=
  c6_size_bookkeeping none [Op.arrive pA, Op.arrive pB, Op.serve, Op.serve, Op.serve]
    _ 2 2 rfl

/-- C7.  No field validation at admission: for every `Patient` value
whatsoever (empty name, out-of-range severity, duplicate id, ...), `arrive`
on a reachable non-full queue succeeds, raises no error, and stores the
record exactly as given at the rear. -/
theorem c7_no_validation (s : FCFSTriageSystem) (p : Patient) (hs : Reachable s)
    (hf : s.is_full = false) :
    ∃ s', s.arrive p = some (s', true) ∧
      s'.traverse_forward = s.traverse_forward ++ [p] := by
  obtain ⟨⟨l, hci⟩, -⟩ := reachable_sysInv s hs
  obtain ⟨s2, harr, hci2, hpats, -, -⟩ := arrive_ok s l p hci hf
  refine ⟨s2, harr, ?_⟩
  rw [traverse_forward_chain s2 _ hci2, hpats, traverse_forward_chain s l hci]

theorem c7_no_validation_witness :
    ∃ s', oneS.arrive pBad = some (s', true) ∧
      s'.traverse_forward = oneS.traverse_forward ++ [pBad] :=
  c7_no_validation oneS pBad reachable_oneS rfl

/-- C8.  Non-positive capacity edge case: the constructor accepts any
capacity, even `c ≤ 0`; on the resulting queue `is_full` is already true
when empty, every `arrive` fails leaving the state unchanged, and every
reachable state carrying such a capacity is empty — the queue stays empty
forever. -/
theorem c8_nonpositive_capacity (c : Int) (hc : c ≤ 0) :
    (FCFSTriageSystem.init (some c))._capacity = some c ∧
    (FCFSTriageSystem.init (some c)).is_full = true ∧
    (∀ p, (FCFSTriageSystem.init (some c)).arrive p
        = some (FCFSTriageSystem.init (some c), false)) ∧
    (∀ s, Reachable s → s._capacity = some c →
        s.is_empty = true ∧ ∀ p, s.arrive p = some (s, false)) := by
  have hfull0 : (FCFSTriageSystem.init (some c)).is_full = true := by
    simp only [FCFSTriageSystem.is_full]
    show decide (c ≤ 0) = true
    simpa using hc
  refine ⟨rfl, hfull0, fun p => arrive_full _ p hfull0, ?_⟩
  intro s hs
  induction hs with
  | init cap =>
      intro hcap
      have hcc : cap = some c := hcap
      subst hcc
      exact ⟨rfl, fun p => arrive_full _ p hfull0⟩
  | arrive s s' p ok hr harr ih =>
      intro hcap1
      have hinv := reachable_sysInv s hr
      obtain ⟨-, hdis⟩ := arrive_step s s' p ok hinv harr
      rcases hdis with ⟨-, -, rfl⟩ | ⟨-, hfull, -, hcapEq, -⟩
      · exact ih hcap1
      · exfalso
        have hcapS : s._capacity = some c := by rw [← hcapEq]; exact hcap1
        obtain ⟨hemp, -⟩ := ih hcapS
        have hsz : s._size = 0 := by
          simpa [FCFSTriageSystem.is_empty] using hemp
        rw [FCFSTriageSystem.is_full, hcapS, hsz] at hfull
        simp at hfull
        omega
  | serve s s' r hr hsrv ih =>
      intro hcap1
      have hinv := reachable_sysInv s hr
      obtain ⟨-, -, -, hcapEq, -⟩ := serve_step s s' r hinv hsrv
      have hcapS : s._capacity = some c := by rw [← hcapEq]; exact hcap1
      obtain ⟨hemp, harr⟩ := ih hcapS
      have hsz : s._size = 0 := by
        simpa [FCFSTriageSystem.is_empty] using hemp
      obtain ⟨⟨l, hci⟩, -⟩ := hinv
      have hl : l = [] := chainInv_nil_of_size_zero s l hci hsz
      subst hl
      have h2 := (serve_empty s hci).symm.trans hsrv
      simp only [Prod.mk.injEq] at h2
      obtain ⟨rfl, -⟩ := h2
      exact ⟨hemp, harr⟩

theorem c8_nonpositive_capacity_witness :
    (FCFSTriageSystem.init (some 0)).is_full = true ∧
    (FCFSTriageSystem.init (some 0)).arrive pA
      = some (FCFSTriageSystem.init (some 0), false) :=
  ⟨(c8_nonpositive_capacity 0 (by decide)).2.1,
   (c8_nonpositive_capacity 0 (by decide)).2.2.1 pA⟩

/-- C9.  Patients pass through unmodified: in any session, the list of
admitted patients is exactly the list of served patients followed by the
current forward traversal — so every record returned by `serve_next` or
appearing in a traversal is byte-for-byte the record that was admitted, and
the traversals contain exactly the admitted-but-not-yet-served patients
(the backward traversal with the same contents, reversed). -/
theorem c9_pass_through (s : FCFSTriageSystem) (adm srv : List Patient)
    (h : Session s adm srv) :
    adm = srv ++ s.traverse_forward ∧
    s.traverse_backward.reverse = s.traverse_forward := by
  obtain ⟨hinv, heq⟩ := session_spec s adm srv h
  obtain ⟨⟨l, hci⟩, -⟩ := hinv
  refine ⟨heq, ?_⟩
  rw [traverse_forward_chain s l hci, traverse_backward_chain s l hci,
    List.reverse_reverse]

theorem c9_pass_through_witness :
    [pA, pB] = [pA] ++ servedS.traverse_forward ∧
    servedS.traverse_backward.reverse = servedS.traverse_forward :=
  c9_pass_through servedS [pA, pB] [pA]
    (Session.serveOk twoS servedS [pA, pB] [] pA
      (Session.arriveOk oneS twoS [pA] [] pB
        (Session.arriveOk (FCFSTriageSystem.init none) oneS [] [] pA
          (Session.init none) rfl)
        rfl)
      rfl)

/-- C10.  Internal assertion validity: in every reachable state, a non-empty
head implies a non-empty tail, so the `assert self.tail is not None` inside
`arrive` never fires — equivalently, `arrive` (which in this embedding
returns `none` exactly when that assertion would raise) always returns a
value. -/
theorem c10_assert_never_fails (s : FCFSTriageSystem) (hs : Reachable s) :
    (s.head ≠ none → s.tail ≠ none) ∧
    ∀ p : Patient, (s.arrive p).isSome = true := by
  obtain ⟨⟨l, hci⟩, -⟩ := reachable_sysInv s hs
  obtain ⟨hch, htail, -, -⟩ := id hci
  constructor
  · intro hh
    cases l with
    | nil => exact absurd hch hh
    | cons a rest =>
        rw [htail, List.getLast?_eq_getLast (a :: rest) (by simp)]
        simp
  · intro p
    cases hfull : s.is_full with
    | true => rw [arrive_full s p hfull]; rfl
    | false =>
        obtain ⟨s2, harr, -, -, -⟩ := arrive_ok s l p hci hfull
        rw [harr]
        rfl

theorem c10_assert_never_fails_witness : (oneS.arrive pB).isSome = true :=
  (c10_assert_never_fails oneS reachable_oneS).2 pB
